import Mathlib

/-!
Verification development for the `MemoryEditor` widget
(`imgui_memory_editor.h`): a shallow embedding of its rendering-independent
algorithms — range lookup with position classification (`IsInRange`), the
note-outline edge logic (`drawNoteRect` / `hasRangeBelow`), the
endianness-aware typed-value codec (`EndianessCopy`, `DrawPreviewData`,
`FormatBinary`), and the converter-panel input handler — together with
theorems about them.

Machine integers (`size_t`, `uint32_t`, …) are modelled as `Nat` with
explicit `% 2 ^ w` where wrap-around matters.  C out-parameters
(`Color& color`, `size_t* out_range_idx`) are modelled as `Option` results:
`some v` means the reference was written with `v`, `none` that it was left
untouched.  Loops are modelled by structural recursion on an explicit fuel
argument that is always instantiated large enough to cover the loop bounds
of the source.
-/

set_option maxHeartbeats 1000000

namespace MemoryEditor

/-- `enum class RangePosition : u8` — position of an address relative to a
matched range. -/
inductive RangePosition
  | NotInRange
  | Start
  | Middle
  | End
  deriving DecidableEq, Repr

/-- `struct HighlightRange` — a half-open address range `[start, end)` with a
color (the 32-bit `ImU32` id) and an activity flag. -/
structure HighlightRange where
  RangeStartAddress : Nat
  RangeEndAddress : Nat
  RangeColor : Nat
  isActive : Bool
  deriving DecidableEq, Repr

/-- `struct NoteRange` — a `HighlightRange` plus a textual description. -/
structure NoteRange where
  RangeStartAddress : Nat
  RangeEndAddress : Nat
  RangeColor : Nat
  Description : String
  isActive : Bool
  deriving DecidableEq, Repr

/-- Result of one `IsInRange` call: the returned `RangePosition`, the final
state of the `Color&` out-reference (`some c` iff it was written, with `c`),
and likewise for the `size_t* out_range_idx` out-parameter. -/
structure RangeQuery where
  pos : RangePosition
  colorOut : Option Nat
  idxOut : Option Nat
  deriving DecidableEq, Repr

/-- `start <= addr && addr < end` — the containment test used by `IsInRange`. -/
def containsAddr (r : HighlightRange) (addr : Nat) : Prop :=
  r.RangeStartAddress ≤ addr ∧ addr < r.RangeEndAddress

instance (r : HighlightRange) (addr : Nat) : Decidable (containsAddr r addr) :=
  inferInstanceAs (Decidable (_ ∧ _))

/-- The classification performed on a matched range (lines 163–171 and
207–215 of the header): `Start` if `addr == start`, else `End` if
`addr == end - 1`, else `Middle`. -/
def classifyPos (r : HighlightRange) (addr : Nat) : RangePosition :=
  if addr = r.RangeStartAddress then RangePosition.Start
  else if addr = r.RangeEndAddress - 1 then RangePosition.End
  else RangePosition.Middle

/-- The `for` loop of the `< 100` path of `IsInRange` (lines 150–173),
scanning from index `idx`.  On the first containing range the color
reference is written; an inactive match returns `NotInRange` immediately. -/
def linearScanFrom (addr : Nat) : List HighlightRange → Nat → RangeQuery
  | [], _ => ⟨RangePosition.NotInRange, none, none⟩
  | r :: rest, idx =>
    if containsAddr r addr then
      if r.isActive = false then ⟨RangePosition.NotInRange, some r.RangeColor, none⟩
      else ⟨classifyPos r addr, some r.RangeColor, some idx⟩
    else linearScanFrom addr rest (idx + 1)

/-- `IsInRange`, restricted to its linear-scan algorithm (the `< 100`-element
path), including the shared empty check and the loose fast-reject
pre-filter (`addr < front.start || addr > back.end`). -/
def IsInRangeLinear (ranges : List HighlightRange) (addr : Nat) : RangeQuery :=
  if hne : ranges = [] then ⟨RangePosition.NotInRange, none, none⟩
  else if addr < (ranges.head hne).RangeStartAddress ∨
      (ranges.getLast hne).RangeEndAddress < addr then
    ⟨RangePosition.NotInRange, none, none⟩
  else linearScanFrom addr ranges 0

/-- Outcome of the three-way-plus-cancellation comparator passed to
`lt::algorithms::binary_find`. -/
inductive CmpOutcome
  | goLeft
  | goRight
  | found
  | cancel
  deriving DecidableEq, Repr

/-- The comparator lambda of the `>= 100` path (lines 177–194): go left when
`addr < start`, go right when `addr >= end`, report found on an active
structural match, and cancel the whole search on an inactive one. -/
def rangeCmp (addr : Nat) (r : HighlightRange) : CmpOutcome :=
  if addr < r.RangeStartAddress then CmpOutcome.goLeft
  else if r.RangeEndAddress ≤ addr then CmpOutcome.goRight
  else if r.isActive then CmpOutcome.found
  else CmpOutcome.cancel

/-- Modelled from the spec: `lt::algorithms::binary_find` with the
`cancel_search` signal (§4.1 step 4 — the header
`algorithms/binary_search.hpp` is not part of `src/`).  A classical binary
search on `[lo, hi)` driven by the comparator; a `cancel` outcome terminates
the search as not-found.  The fuel argument only bounds the iteration count
and is always called with `fuel ≥ hi - lo`, which the search never
exhausts. -/
def binaryFindAux (ranges : List HighlightRange) (addr : Nat) : Nat → Nat → Nat → Option Nat
  | 0, _, _ => none
  | fuel + 1, lo, hi =>
    if lo < hi then
      match ranges.get? ((lo + hi) / 2) with
      | none => none
      | some r =>
        match rangeCmp addr r with
        | CmpOutcome.goLeft => binaryFindAux ranges addr fuel lo ((lo + hi) / 2)
        | CmpOutcome.goRight => binaryFindAux ranges addr fuel ((lo + hi) / 2 + 1) hi
        | CmpOutcome.found => some ((lo + hi) / 2)
        | CmpOutcome.cancel => none
    else none

/-- `IsInRange`, restricted to its binary-search algorithm (the
`>= 100`-element path), including the shared empty check and fast-reject
pre-filter.  On success the matched element is re-read and classified
(lines 197–215); the comparator wrote the color reference exactly when the
search reports found. -/
def IsInRangeBinary (ranges : List HighlightRange) (addr : Nat) : RangeQuery :=
  if hne : ranges = [] then ⟨RangePosition.NotInRange, none, none⟩
  else if addr < (ranges.head hne).RangeStartAddress ∨
      (ranges.getLast hne).RangeEndAddress < addr then
    ⟨RangePosition.NotInRange, none, none⟩
  else
    match binaryFindAux ranges addr ranges.length 0 ranges.length with
    | some idx =>
      match ranges.get? idx with
      | some r => ⟨classifyPos r addr, some r.RangeColor, some idx⟩
      | none => ⟨RangePosition.NotInRange, none, none⟩
    | none => ⟨RangePosition.NotInRange, none, none⟩

/-- `IsInRange` (lines 134–219): dispatches on the sequence size — linear
scan below 100 elements, binary search at or above. -/
def IsInRange (ranges : List HighlightRange) (addr : Nat) : RangeQuery :=
  if ranges.length < 100 then IsInRangeLinear ranges addr else IsInRangeBinary ranges addr

/-- `std::numeric_limits<size_t>::max()` on a 64-bit host. -/
def SIZE_MAX : Nat := 2 ^ 64 - 1

/-- The scan over later notes inside `hasRangeBelow` (lines 644–657),
accumulating into the zero-initialised `rangesInNextLine` and breaking as
soon as a note that starts at-or-before the next line does not reach past
the cell below.  Fuel is always called with `notes.length`, enough for the
whole scan. -/
def scanNotesBelow (notes : List NoteRange) (nextLineFirstAddr cellAddrBellow noteStartIdx : Nat) :
    Nat → Nat → NoteRange → NoteRange
  | 0, _, acc => acc
  | fuel + 1, noteIdx, acc =>
    match notes.get? noteIdx with
    | none => acc
    | some note =>
      if note.RangeStartAddress ≤ nextLineFirstAddr then
        if cellAddrBellow < note.RangeEndAddress then
          scanNotesBelow notes nextLineFirstAddr cellAddrBellow noteStartIdx fuel (noteIdx + 1)
            { acc with
              RangeStartAddress :=
                if noteIdx = noteStartIdx then note.RangeStartAddress else acc.RangeStartAddress,
              RangeEndAddress := note.RangeEndAddress,
              isActive := note.isActive }
        else acc
      else scanNotesBelow notes nextLineFirstAddr cellAddrBellow noteStartIdx fuel (noteIdx + 1) acc

/-- `hasRangeBelow` (lines 630–668): whether the cell directly below (same
column, next display line) is covered by the same note or by a later active
note found by the adjacency scan. -/
def hasRangeBelow (notes : List NoteRange) (lastLineAddr note_idx lineIdx colIdx line_max_idx : Nat) : Bool :=
  let nextLineFirstAddr := lastLineAddr + 1
  let cellAddrBellow := nextLineFirstAddr + colIdx
  let zeroNote : NoteRange := ⟨0, 0, 0, "", false⟩
  let st :=
    match notes.get? note_idx with
    | none => (false, false, zeroNote)
    | some note =>
      (decide (nextLineFirstAddr < note.RangeEndAddress),
       decide (cellAddrBellow < note.RangeEndAddress),
       scanNotesBelow notes nextLineFirstAddr cellAddrBellow (note_idx + 1) notes.length
         (note_idx + 1) zeroNote)
  let noteDoesntEndInSameLine := st.1
  let cellBelowInSameNote := st.2.1
  let rangesInNextLine := st.2.2
  let hasAnotherNoteBelow :=
    decide (cellAddrBellow < rangesInNextLine.RangeEndAddress) && rangesInNextLine.isActive
  let hasSameNoteBelow := noteDoesntEndInSameLine && cellBelowInSameNote
  let hasNoteBelow := hasSameNoteBelow || hasAnotherNoteBelow
  decide (lineIdx < line_max_idx) && hasNoteBelow

/-- The mid-column spacing test of `drawNoteRect` (line 589): a visual gap
sits exactly at the right boundary of column `colIdx`. -/
def isSpaceInBetween (OptMidColsCount Cols colIdx : Nat) : Bool :=
  decide (0 < OptMidColsCount) && decide (0 < colIdx) && decide (colIdx + 1 < Cols) &&
    decide ((colIdx + 1) % OptMidColsCount = 0)

/-- Which of the four outline edges `drawNoteRect` draws for one cell. -/
structure NoteEdges where
  top : Bool
  bottom : Bool
  left : Bool
  right : Bool
  deriving DecidableEq, Repr

/-- The edge decisions of `drawNoteRect` (lines 571–628), stripped of the
floating-point pixel geometry: top always; bottom iff a mid-column gap sits
at this cell's right boundary or `hasRangeBelow` is false; left iff `Start`
or first cell of the display line; right iff `End` or last cell of the
display line. -/
def drawNoteRectEdges (notes : List NoteRange) (OptMidColsCount Cols : Nat)
    (note_idx addr : Nat) (range_position : RangePosition)
    (colIdx lineIdx line_max_idx : Nat) : NoteEdges :=
  let firstLineAddr := addr - colIdx
  let lastLineAddr := addr + (Cols - colIdx - 1)
  let notRangeBelow := ! hasRangeBelow notes lastLineAddr note_idx lineIdx colIdx line_max_idx
  { top := true
    bottom := isSpaceInBetween OptMidColsCount Cols colIdx || notRangeBelow
    left := decide (range_position = RangePosition.Start) || decide (addr = firstLineAddr)
    right := decide (range_position = RangePosition.End) || decide (addr = lastLineAddr) }

/-- The editor fields consulted by the per-cell highlight logic of
`DrawContents`.  `HighlightFnPresent`/`HighlightFn` model the optional
`HighlightFn` callback pointer (the byte buffer argument is fixed). -/
structure EditorCfg where
  Cols : Nat
  OptMidColsCount : Nat
  HighlightMin : Nat
  HighlightMax : Nat
  DataPreviewAddr : Nat
  HighlightFnPresent : Bool
  HighlightFn : Nat → Bool
  Ranges : List HighlightRange

/-- `is_highlight_from_user_range` (line 439). -/
def isHighlightFromUserRange (ed : EditorCfg) (addr : Nat) : Bool :=
  decide (ed.HighlightMin ≤ addr) && decide (addr < ed.HighlightMax)

/-- `is_highlight_from_user_func` (line 440). -/
def isHighlightFromUserFunc (ed : EditorCfg) (addr : Nat) : Bool :=
  ed.HighlightFnPresent && ed.HighlightFn addr

/-- `is_highlight_from_preview` (line 441).  The sum
`DataPreviewAddr + preview_data_type_size` is `size_t` arithmetic and
wraps modulo `2 ^ 64` — significant because the no-preview sentinel is
`DataPreviewAddr = SIZE_MAX` (constructor, line 279). -/
def isHighlightFromPreview (ed : EditorCfg) (addr preview_data_type_size : Nat) : Bool :=
  decide (ed.DataPreviewAddr ≤ addr) &&
    decide (addr < (ed.DataPreviewAddr + preview_data_type_size) % 2 ^ 64)

/-- `isNextByteHighlighted` (lines 561–569).  All address arithmetic is
`size_t` and wraps modulo `2 ^ 64`; in particular
`DataPreviewAddr + preview_data_type_size` wraps to
`preview_data_type_size - 1` when the preview is unset
(`DataPreviewAddr = SIZE_MAX`), making `highlightFromPreview` almost
always false in that state. -/
def isNextByteHighlighted (ed : EditorCfg) (addr mem_size preview_data_type_size rangeIdx : Nat) : Bool :=
  let nextAddr := (addr + 1) % 2 ^ 64
  let isNotLastAddr := decide (nextAddr < mem_size)
  let highlighMaxWasSet := decide (ed.HighlightMax ≠ SIZE_MAX)
  let highlighFromFn := ed.HighlightFnPresent && ed.HighlightFn nextAddr
  let isNotLastHighlighAddr := decide (nextAddr < ed.HighlightMax)
  let highlightFromPreview :=
    decide (nextAddr < (ed.DataPreviewAddr + preview_data_type_size) % 2 ^ 64)
  let isNotLastInRange :=
    decide (rangeIdx < ed.Ranges.length) &&
      (match ed.Ranges.get? rangeIdx with
       | some r => decide (nextAddr < r.RangeEndAddress)
       | none => false)
  isNotLastAddr &&
    ((highlighMaxWasSet && isNotLastHighlighAddr) || highlighFromFn || highlightFromPreview ||
      isNotLastInRange)

/-- The three possible drawn widths of a cell's highlight rectangle
(lines 454–460): two glyph widths, the full hex cell width, or the full
cell width plus the mid-column spacing. -/
inductive CellWidth
  | twoGlyphs
  | fullCell
  | fullCellPlusSpacing
  deriving DecidableEq, Repr

/-- The width decision of the highlight rectangle for one drawn cell
(lines 453–460 / 468–475).  `range_idx` starts as `SIZE_MAX` (line 435) and
holds the matched `Ranges` index when `IsInRange` matched. -/
def highlightCellWidth (ed : EditorCfg) (addr mem_size preview_data_type_size colIdx : Nat) : CellWidth :=
  let rangeIdx := ((IsInRange ed.Ranges addr).idxOut).getD SIZE_MAX
  if isNextByteHighlighted ed addr mem_size preview_data_type_size rangeIdx ||
      decide (colIdx + 1 = ed.Cols) then
    if decide (0 < ed.OptMidColsCount) && decide (0 < colIdx) && decide (colIdx + 1 < ed.Cols) &&
        decide ((colIdx + 1) % ed.OptMidColsCount = 0) then
      CellWidth.fullCellPlusSpacing
    else CellWidth.fullCell
  else CellWidth.twoGlyphs

/-- Whether the cell at `addr` gets a highlight rectangle at all: the first
two branches of the per-cell logic (lines 442 and 467). -/
def cellHasHighlightRect (ed : EditorCfg) (addr preview_data_type_size : Nat) : Bool :=
  isHighlightFromUserRange ed addr || isHighlightFromUserFunc ed addr ||
    isHighlightFromPreview ed addr preview_data_type_size ||
    decide ((IsInRange ed.Ranges addr).pos ≠ RangePosition.NotInRange)

/-- Definition following the spec's words for the width-correction claim:
"the next address is also annotated (by the same note/range)" — the next
address exists and is itself covered by one of the annotation sources (the
user highlight range, the highlight callback, the preview span, or the same
matched `Ranges` element).  To be compared with `isNextByteHighlighted`. -/
def nextAddrAnnotated (ed : EditorCfg) (addr mem_size preview_data_type_size : Nat) : Bool :=
  decide (addr + 1 < mem_size) &&
    (isHighlightFromUserRange ed (addr + 1) || isHighlightFromUserFunc ed (addr + 1) ||
      isHighlightFromPreview ed (addr + 1) preview_data_type_size ||
      (match (IsInRange ed.Ranges addr).idxOut with
       | some i =>
         match ed.Ranges.get? i with
         | some r => decide (r.RangeStartAddress ≤ addr + 1) && decide (addr + 1 < r.RangeEndAddress)
         | none => false
       | none => false))

/-- The bytes of `uint16_t x = value` in host memory order (the `memcpy`
inside `IsBigEndian`).  `hostLittle = true` means the host stores the least
significant byte first. -/
def uint16Bytes (hostLittle : Bool) (x : Nat) : List Nat :=
  if hostLittle then [x % 256, x / 256 % 256] else [x / 256 % 256, x % 256]

/-- `IsBigEndian` (lines 1017–1023): inspects the first byte of
`uint16_t x = 1` and reports `c[0] != 0` — note that this is `true` exactly
on a little-endian host. -/
def IsBigEndian (hostLittle : Bool) : Bool :=
  decide ((uint16Bytes hostLittle 1).headD 0 ≠ 0)

/-- `EndianessCopyBigEndian` (lines 1025–1039) as a transformation of the
copied byte sequence: reverse when `is_little_endian` is truthy, else copy
verbatim. -/
def EndianessCopyBigEndian (src : List Nat) (is_little_endian : Nat) : List Nat :=
  if is_little_endian ≠ 0 then src.reverse else src

/-- `EndianessCopyLittleEndian` (lines 1041–1055). -/
def EndianessCopyLittleEndian (src : List Nat) (is_little_endian : Nat) : List Nat :=
  if is_little_endian ≠ 0 then src else src.reverse

/-- `EndianessCopy` (lines 1057–1063): picks the copy routine from
`IsBigEndian()` and passes `PreviewEndianess` (0 = "LE", 1 = "BE" in the
combo) as the `is_little_endian` argument. -/
def EndianessCopy (hostLittle : Bool) (previewEndianess : Nat) (src : List Nat) : List Nat :=
  if IsBigEndian hostLittle then EndianessCopyBigEndian src previewEndianess
  else EndianessCopyLittleEndian src previewEndianess

/-- Reading an unsigned integer from a byte sequence in host memory order:
least significant byte first on a little-endian host, most significant
first otherwise. -/
def nativeReadUInt (hostLittle : Bool) (bytes : List Nat) : Nat :=
  if hostLittle then bytes.foldr (fun b acc => acc * 256 + b) 0
  else bytes.foldl (fun acc b => acc * 256 + b) 0

/-- One decode step of `DrawPreviewData` (e.g. the `DataType_U32` case,
lines 1150–1156): a zero-initialised `width`-byte destination receives the
`EndianessCopy` of the available source bytes and is then read natively. -/
def decodeUInt (hostLittle : Bool) (previewEndianess : Nat) (width : Nat) (src : List Nat) : Nat :=
  let copied := EndianessCopy hostLittle previewEndianess src
  nativeReadUInt hostLittle (copied ++ List.replicate (width - src.length) 0)

/-- The eight characters one byte contributes in `FormatBinary`
(`buf[j] & (1 << (7 - i))`, bit 7 first). -/
def byteBits (b : Nat) : List Char :=
  (List.range 8).map fun i => if b.testBit (7 - i) then '1' else '0'

/-- `FormatBinary` (lines 1065–1080): `width / 8` bytes, highest index
first, eight `'0'/'1'` characters per byte, each byte followed by one
space character (including the last). -/
def FormatBinary (buf : List Nat) (width : Nat) : String :=
  let n := width / 8
  String.mk (List.flatten (((List.range n).reverse).map fun j => byteBits (buf.getD j 0) ++ [' ']))

/-- The `DataFormat_Bin` branch of `DrawPreviewData` (lines 1099–1105):
endianness-convert the source bytes, then `FormatBinary` with
`size * 8` bits. -/
def DrawPreviewDataBin (hostLittle : Bool) (previewEndianess : Nat) (src : List Nat) : String :=
  FormatBinary (EndianessCopy hostLittle previewEndianess src) (src.length * 8)

/-- Lower-case hexadecimal digit characters, as printf `%x` uses. -/
def hexDigitChar (n : Nat) : Char :=
  if n < 10 then Char.ofNat (48 + n) else Char.ofNat (87 + n)

/-- Hexadecimal digits of `n`, least significant first; structural fuel
(64 is enough for every value below `16 ^ 64`, in particular for every
64-bit value the widget prints). -/
def natToHexRevAux : Nat → Nat → List Char
  | 0, _ => []
  | fuel + 1, n => if n = 0 then [] else hexDigitChar (n % 16) :: natToHexRevAux fuel (n / 16)

/-- The digit string printf `%x` emits for `v` (most significant first,
`"0"` for zero). -/
def hexDigitsOf (v : Nat) : List Char :=
  if v = 0 then ['0'] else (natToHexRevAux 64 v).reverse

/-- Model of `ImSnprintf(buf, n, "0x%0*x", v)` — a literal `0x` followed by
the lower-case hex digits of `v`, left-padded with zeros to `pad` digits. -/
def sprintfHex0x (pad v : Nat) : String :=
  let ds := hexDigitsOf v
  String.mk ('0' :: 'x' :: (List.replicate (pad - ds.length) '0' ++ ds))

/-- `isxdigit`, as the scanf `%X` conversion accepts. -/
def isHexDigitChar (c : Char) : Bool :=
  (decide ('0' ≤ c) && decide (c ≤ '9')) || (decide ('a' ≤ c) && decide (c ≤ 'f')) ||
    (decide ('A' ≤ c) && decide (c ≤ 'F'))

/-- Numeric value of a hexadecimal digit character (0 for anything else). -/
def hexCharVal (c : Char) : Nat :=
  if decide ('0' ≤ c) && decide (c ≤ '9') then c.toNat - 48
  else if decide ('a' ≤ c) && decide (c ≤ 'f') then c.toNat - 87
  else if decide ('A' ≤ c) && decide (c ≤ 'F') then c.toNat - 55
  else 0

/-- Accumulated value of a big-endian string of hex digit characters. -/
def hexDigitsVal (cs : List Char) : Nat :=
  cs.foldl (fun a c => 16 * a + hexCharVal c) 0

/-- The digit-consuming tail of the `%zX` conversion: the longest run of
hex digits, a matching failure (`none`) when there is none. -/
def scanHexDigits (cs : List Char) : Option Nat :=
  if cs.takeWhile isHexDigitChar = [] then none
  else some (hexDigitsVal (cs.takeWhile isHexDigitChar))

/-- The optional `0x`/`0X` prefix of the `%zX` conversion. -/
def scanHexCore : List Char → Option Nat
  | c0 :: c1 :: rest =>
    if c0 = '0' ∧ (c1 = 'x' ∨ c1 = 'X') then scanHexDigits rest
    else scanHexDigits (c0 :: c1 :: rest)
  | cs => scanHexDigits cs

/-- Model of `sscanf(buf, "%zX", &v)`: skip whitespace, consume an optional
`0x`/`0X` prefix, then the longest run of hex digits; matching fails
(`none`) when no digit is found.  (Out-of-range clamping of `strtoul` is
not modelled; every string the widget produces is in range.) -/
def scanHexX (s : String) : Option Nat :=
  scanHexCore (s.data.dropWhile Char.isWhitespace)

/-- The bytes of a value, least significant first, in exactly `n` bytes. -/
def bytesLE : Nat → Nat → List Nat
  | 0, _ => []
  | n + 1, v => v % 256 :: bytesLE n (v / 256)

/-- The 8 bytes of a `size_t` value in host memory order (the
`memcpy(buf, (void*)&addr, size)` source in `DrawPreviewData`,
line 1096). -/
def sizeTBytes (hostLittle : Bool) (v : Nat) : List Nat :=
  if hostLittle then bytesLE 8 v else (bytesLE 8 v).reverse

/-- `floor (log2 n)` with structural fuel (256 covers every value the
widget can produce from its 32-character text buffers). -/
def log2fuel : Nat → Nat → Nat
  | 0, _ => 0
  | fuel + 1, n => if n < 2 then 0 else log2fuel fuel (n / 2) + 1

/-- `D * 2 ^ e ≤ N` for an integer exponent `e`. -/
def pow2le (D : Nat) (e : Int) (N : Nat) : Bool :=
  if 0 ≤ e then decide (D * 2 ^ e.toNat ≤ N) else decide (D ≤ N * 2 ^ (-e).toNat)

/-- `floor (log2 (N / D))` for positive `N`, `D`. -/
def floorLog2Rat (N D : Nat) : Int :=
  let a : Int := log2fuel 256 N
  let b : Int := log2fuel 256 D
  if pow2le D (a - b) N then a - b else a - b - 1

/-- Division rounded to nearest, ties to even. -/
def roundDiv (num den : Nat) : Nat :=
  let q := num / den
  let r := num % den
  if den < 2 * r then q + 1 else if 2 * r < den then q else q + q % 2

/-- Round the positive rational `N / D` to an IEEE-754 magnitude bit
pattern with `mantBits` stored mantissa bits, exponent bias `bias`,
exponent field limit `maxExpField` and subnormal LSB `2 ^ (-subLsbExp)`
(round to nearest, ties to even; overflow gives infinity). -/
def roundMagToIEEE (mantBits bias maxExpField subLsbExp : Nat) (N D : Nat) : Nat :=
  if N = 0 ∨ D = 0 then 0
  else
    let e := floorLog2Rat N D
    if e < 1 - (bias : Int) then
      roundDiv (N * 2 ^ subLsbExp) D
    else
      let s : Int := (mantBits : Int) - e
      let num := if 0 ≤ s then N * 2 ^ s.toNat else N
      let den := if 0 ≤ s then D else D * 2 ^ (-s).toNat
      let q := roundDiv num den
      let e2 := if q = 2 ^ (mantBits + 1) then e + 1 else e
      let q2 := if q = 2 ^ (mantBits + 1) then 2 ^ mantBits else q
      if (maxExpField : Int) ≤ e2 + (bias : Int) then maxExpField * 2 ^ mantBits
      else (e2 + (bias : Int)).toNat * 2 ^ mantBits + (q2 - 2 ^ mantBits)

/-- The C conversion `float float32 = float16` on IEEE bit patterns
(value-preserving; every binary16 value is exactly representable in
binary32). -/
def f16ToF32Bits (h : Nat) : Nat :=
  let h := h % 2 ^ 16
  let s := h / 2 ^ 15
  let e := h / 2 ^ 10 % 2 ^ 5
  let m := h % 2 ^ 10
  if e = 31 then s * 2 ^ 31 + 255 * 2 ^ 23 + m * 2 ^ 13
  else if e = 0 then
    if m = 0 then s * 2 ^ 31
    else
      let k := log2fuel 16 m
      s * 2 ^ 31 + (k + 103) * 2 ^ 23 + (m * 2 ^ (23 - k)) % 2 ^ 23
  else s * 2 ^ 31 + (e + 112) * 2 ^ 23 + m * 2 ^ 13

/-- The varargs promotion `float → double` on IEEE bit patterns
(value-preserving). -/
def f32ToF64Bits (w : Nat) : Nat :=
  let w := w % 2 ^ 32
  let s := w / 2 ^ 31
  let e := w / 2 ^ 23 % 2 ^ 8
  let m := w % 2 ^ 23
  if e = 255 then s * 2 ^ 63 + 2047 * 2 ^ 52 + m * 2 ^ 29
  else if e = 0 then
    if m = 0 then s * 2 ^ 63
    else
      let k := log2fuel 32 m
      s * 2 ^ 63 + (k + 874) * 2 ^ 52 + (m * 2 ^ (52 - k)) % 2 ^ 52
  else s * 2 ^ 63 + (e + 896) * 2 ^ 52 + m * 2 ^ 29

/-- Decimal digits of `n`, least significant first, with structural fuel. -/
def natToDecRevAux : Nat → Nat → List Char
  | 0, _ => []
  | fuel + 1, n => if n = 0 then [] else Char.ofNat (48 + n % 10) :: natToDecRevAux fuel (n / 10)

/-- Decimal digit string of `n`, most significant first (`"0"` for zero). -/
def natDecChars (n : Nat) : List Char :=
  if n = 0 then ['0'] else (natToDecRevAux 64 n).reverse

/-- A signed decimal rendering with a mandatory sign, as printf `%+d`. -/
def intSignedDecChars (i : Int) : List Char :=
  if i < 0 then '-' :: natDecChars i.natAbs else '+' :: natDecChars i.toNat

/-- Model of glibc `printf("%a", x)` applied to the IEEE-754 binary64 value
with bit pattern `bits`: sign, `0x`, the leading digit (`0` for zeros and
subnormals, `1` for normals), the 13 mantissa nibbles with trailing zero
nibbles trimmed (the `.` omitted when none remain), and `p` with the
explicitly signed binary exponent; infinities and NaNs print as
`inf` / `nan`. -/
def sprintfA (bits : Nat) : String :=
  let b := bits % 2 ^ 64
  let sgn : List Char := if b / 2 ^ 63 = 1 then ['-'] else []
  let e : Nat := b / 2 ^ 52 % 2 ^ 11
  let m : Nat := b % 2 ^ 52
  if e = 2047 then
    String.mk (sgn ++ (if m = 0 then ['i', 'n', 'f'] else ['n', 'a', 'n']))
  else
    let lead : Char := if e = 0 then '0' else '1'
    let expVal : Int := if e = 0 then (if m = 0 then 0 else -1022) else (e : Int) - 1023
    let nibbles := (List.range 13).map fun i => m / 16 ^ (12 - i) % 16
    let trimmed := (nibbles.reverse.dropWhile (fun d => d = 0)).reverse
    let frac : List Char := if trimmed = [] then [] else '.' :: trimmed.map hexDigitChar
    String.mk (sgn ++ '0' :: 'x' :: lead :: (frac ++ 'p' :: intSignedDecChars expVal))

/-- `enum DataType_` — the 11 primitive kinds of the preview/converter. -/
inductive DataType
  | S8
  | U8
  | S16
  | U16
  | S32
  | U32
  | S64
  | U64
  | HalfFloat
  | Float
  | Double
  deriving DecidableEq, Repr

/-- The enumerant value of a `DataType_` (its position, used by the
`type % 2` signedness tests of the converter). -/
def DataType.code : DataType → Nat
  | DataType.S8 => 0
  | DataType.U8 => 1
  | DataType.S16 => 2
  | DataType.U16 => 3
  | DataType.S32 => 4
  | DataType.U32 => 5
  | DataType.S64 => 6
  | DataType.U64 => 7
  | DataType.HalfFloat => 8
  | DataType.Float => 9
  | DataType.Double => 10

/-- `DataTypeGetSize` (lines 1003–1008). -/
def DataTypeGetSize : DataType → Nat
  | DataType.S8 => 1
  | DataType.U8 => 1
  | DataType.S16 => 2
  | DataType.U16 => 2
  | DataType.S32 => 4
  | DataType.U32 => 4
  | DataType.S64 => 8
  | DataType.U64 => 8
  | DataType.HalfFloat => 2
  | DataType.Float => 4
  | DataType.Double => 8

/-- Whether the kind is one of the eight integer kinds. -/
def DataType.isIntType : DataType → Bool
  | DataType.S8 | DataType.U8 | DataType.S16 | DataType.U16 | DataType.S32 | DataType.U32
  | DataType.S64 | DataType.U64 => true
  | _ => false

/-- `enum DataFormat`. -/
inductive DataFormat
  | Bin
  | Dec
  | Hex
  deriving DecidableEq, Repr

/-- `DrawPreviewData(value, nullptr, 0, t, DataFormat_Hex, …)` — the
hexadecimal rendering of the converter register `value` (lines 1083–1203):
the first `DataTypeGetSize t` bytes of the register's host representation
go through `EndianessCopy` into a zero destination; integer kinds print as
`0x%0*x` of the decoded bits, float kinds convert the decoded bits to a
double and print `%a`. -/
def formatHexConverter (hostLittle : Bool) (pe : Nat) (t : DataType) (v : Nat) : String :=
  let size := DataTypeGetSize t
  let buf := (sizeTBytes hostLittle v).take size
  let bits := decodeUInt hostLittle pe size buf
  match t with
  | DataType.S8 => sprintfHex0x 2 (bits % 2 ^ 8)
  | DataType.U8 => sprintfHex0x 2 (bits % 2 ^ 8)
  | DataType.S16 => sprintfHex0x 4 (bits % 2 ^ 16)
  | DataType.U16 => sprintfHex0x 4 (bits % 2 ^ 16)
  | DataType.S32 => sprintfHex0x 8 bits
  | DataType.U32 => sprintfHex0x 8 bits
  | DataType.S64 => sprintfHex0x 16 bits
  | DataType.U64 => sprintfHex0x 16 bits
  | DataType.HalfFloat => sprintfA (f32ToF64Bits (f16ToF32Bits bits))
  | DataType.Float => sprintfA (f32ToF64Bits bits)
  | DataType.Double => sprintfA bits

/-- Model of the decimal-number syntax `sscanf` `%f`/`%lf` accepts from the
converter's text box: optional whitespace and sign, digits with an optional
fractional part, at least one digit overall.  Returns the sign, the digit
string's value `N` and the fraction length `k` (the value is
`± N / 10 ^ k`).  The exponent / `inf` / `nan` / hex-float forms of
`strtod` are unreachable here — the input box filters to
`ImGuiInputTextFlags_CharsDecimal` — and are not modelled. -/
def parseDecimal (s : String) : Option (Bool × Nat × Nat) :=
  let cs := s.data.dropWhile Char.isWhitespace
  let p :=
    match cs with
    | c :: rest =>
      if c = '-' then (true, rest) else if c = '+' then (false, rest) else (false, cs)
    | [] => (false, cs)
  let neg := p.1
  let cs2 := p.2
  let intPart := cs2.takeWhile Char.isDigit
  let cs3 := cs2.dropWhile Char.isDigit
  let fracPart :=
    match cs3 with
    | c :: rest => if c = '.' then rest.takeWhile Char.isDigit else []
    | [] => []
  if intPart = [] ∧ fracPart = [] then none
  else
    let digits := (intPart ++ fracPart).foldl (fun a c => 10 * a + (c.toNat - 48)) 0
    some (neg, digits, fracPart.length)

/-- Parse an optionally signed decimal integer, as the integer `scanf`
conversions do: optional whitespace and sign, then the longest run of
decimal digits; matching fails when no digit follows. -/
def parseDecInt (s : String) : Option Int :=
  let cs := s.data.dropWhile Char.isWhitespace
  let p :=
    match cs with
    | c :: rest =>
      if c = '-' then (true, rest) else if c = '+' then (false, rest) else (false, cs)
    | [] => (false, cs)
  let ds := p.2.takeWhile Char.isDigit
  if ds = [] then none
  else
    let n : Nat := ds.foldl (fun a c => 10 * a + (c.toNat - 48)) 0
    some (if p.1 then -(n : Int) else (n : Int))

/-- Model of `sscanf` `%ld`: the parsed integer, clamped to the `long`
range as glibc `strtol` does, stored two's-complement into the 64-bit
`size_t` register. -/
def scanLd (s : String) : Option Nat :=
  (parseDecInt s).map fun i =>
    let j := max (-(2 ^ 63) : Int) (min ((2 ^ 63 - 1) : Int) i)
    (j % (2 ^ 64 : Int)).toNat

/-- Model of `sscanf` `%lu`: the parsed integer's magnitude clamped to
`ULONG_MAX` as glibc `strtoul` does, negated modulo `2 ^ 64` when a minus
sign was present. -/
def scanLu (s : String) : Option Nat :=
  (parseDecInt s).map fun i =>
    let m : Nat := min i.natAbs (2 ^ 64 - 1)
    if i < 0 then ((-(m : Int)) % (2 ^ 64 : Int)).toNat else m

/-- The binary32 bit pattern of the parsed decimal `± N / 10 ^ k`, rounded
to nearest (ties to even) as `strtof` does. -/
def f32FromDec (neg : Bool) (N k : Nat) : Nat :=
  (if neg then 2 ^ 31 else 0) + roundMagToIEEE 23 127 255 149 N (10 ^ k)

/-- The binary64 bit pattern of the parsed decimal `± N / 10 ^ k`, rounded
to nearest (ties to even) as `strtod` does. -/
def f64FromDec (neg : Bool) (N k : Nat) : Nat :=
  (if neg then 2 ^ 63 else 0) + roundMagToIEEE 52 1023 2047 1074 N (10 ^ k)

/-- Model of `sscanf(buf, "%f", &x)`: the parsed decimal as binary32 bits,
or `none` on matching failure. -/
def scanF32bits (s : String) : Option Nat :=
  (parseDecimal s).map fun p => f32FromDec p.1 p.2.1 p.2.2

/-- Model of `sscanf(buf, "%lf", &x)`: the parsed decimal as binary64 bits,
or `none` on matching failure. -/
def scanF64bits (s : String) : Option Nat :=
  (parseDecimal s).map fun p => f64FromDec p.1 p.2.1 p.2.2

/-- The converter-panel state consulted by the input-submission handler. -/
structure ConverterState where
  ConvertValueType : DataType
  ConvertValueFormat : DataFormat
  ValueToConvert : Nat
  deriving DecidableEq, Repr

/-- The input-submission handler of the converter (lines 842–871): the new
value of the `ValueToConvert` register after scanning the text box.
`DataFormat_Hex` scans `%zX` into the whole register; `Bin`/`Dec` dispatch
on the type — `HalfFloat` scans `%f` into a discarded local copy, `Float`
scans `%f` over the register's first four bytes (its low half on a
little-endian host, high half otherwise), `Double` scans `%lf` over the
whole register, integer kinds scan `%ld` (even enumerants, the signed
kinds) or `%lu` (odd enumerants).  A failing scan writes nothing. -/
def convertInput (hostLittle : Bool) (st : ConverterState) (text : String) : Nat :=
  match st.ConvertValueFormat with
  | DataFormat.Hex =>
    match scanHexX text with
    | some v => v % 2 ^ 64
    | none => st.ValueToConvert
  | DataFormat.Bin | DataFormat.Dec =>
    match st.ConvertValueType with
    | DataType.HalfFloat =>
      -- `f32 _f16 = *(f16*)&ValueToConvert; sscanf(buf, "%f", &_f16);`
      -- the scan result lands in the local `_f16` and is discarded.
      st.ValueToConvert
    | DataType.Float =>
      match scanF32bits text with
      | some b =>
        if hostLittle then st.ValueToConvert / 2 ^ 32 * 2 ^ 32 + b
        else b * 2 ^ 32 + st.ValueToConvert % 2 ^ 32
      | none => st.ValueToConvert
    | DataType.Double =>
      match scanF64bits text with
      | some b => b
      | none => st.ValueToConvert
    | t =>
      if t.code % 2 = 0 then
        match scanLd text with
        | some v => v
        | none => st.ValueToConvert
      else
        match scanLu text with
        | some v => v
        | none => st.ValueToConvert

/-- Whether the scan of the handler above fails on `text` (the matching
failure of the respective `sscanf` call). -/
def scanFailed (st : ConverterState) (text : String) : Bool :=
  match st.ConvertValueFormat with
  | DataFormat.Hex => (scanHexX text).isNone
  | DataFormat.Bin | DataFormat.Dec =>
    match st.ConvertValueType with
    | DataType.HalfFloat => (scanF32bits text).isNone
    | DataType.Float => (scanF32bits text).isNone
    | DataType.Double => (scanF64bits text).isNone
    | t => if t.code % 2 = 0 then (scanLd text).isNone else (scanLu text).isNone

/-- A concrete editor state exercising the width-correction logic: the
user highlight range is `[10, 20)`, the preview spans `[3, 4)` (a one-byte
type at address 3), no highlight callback, no color ranges. -/
def ed8 : EditorCfg :=
  { Cols := 16, OptMidColsCount := 8, HighlightMin := 10, HighlightMax := 20,
    DataPreviewAddr := 3, HighlightFnPresent := false, HighlightFn := fun _ => false,
    Ranges := [] }

/-- The same editor state with the preview unset: `DataPreviewAddr` holds
the `SIZE_MAX` sentinel the constructor installs (line 279), so the
wrapped preview bound `SIZE_MAX + preview size` is `preview size - 1`. -/
def ed8b : EditorCfg :=
  { Cols := 16, OptMidColsCount := 8, HighlightMin := 10, HighlightMax := 20,
    DataPreviewAddr := SIZE_MAX, HighlightFnPresent := false, HighlightFn := fun _ => false,
    Ranges := [] }

/-! ## Theorems -/

/-- C4: decoding the four bytes `01 02 03 04` as `U32` yields `0x04030201`
with the `LE` selector (`PreviewEndianess = 0`) and `0x01020304` with the
`BE` selector (`PreviewEndianess = 1`), whichever the host's native byte
order is. -/
theorem C4_endianness_decode :
    ∀ hostLittle : Bool,
      decodeUInt hostLittle 0 4 [1, 2, 3, 4] = 0x04030201 ∧
      decodeUInt hostLittle 1 4 [1, 2, 3, 4] = 0x01020304 := by
  decide

/-- C5: the bottom edge of a note cell's outline is drawn iff a mid-column
spacing gap lies exactly at the cell's right boundary or `hasRangeBelow`
reports no note covering the cell directly below; in particular, for the
two-line note `[0, 8)` on a 4-column grid with no mid-column gaps, the
bottom edge at line 0, column 3 is absent. -/
theorem C5_bottom_edge (notes : List NoteRange) (OptMidColsCount Cols note_idx addr : Nat)
    (rp : RangePosition) (colIdx lineIdx line_max_idx : Nat) :
    ((drawNoteRectEdges notes OptMidColsCount Cols note_idx addr rp colIdx lineIdx
        line_max_idx).bottom = true ↔
      (isSpaceInBetween OptMidColsCount Cols colIdx = true ∨
        hasRangeBelow notes (addr + (Cols - colIdx - 1)) note_idx lineIdx colIdx
          line_max_idx = false)) ∧
    (drawNoteRectEdges [⟨0, 8, 0, "", true⟩] 0 4 0 3 RangePosition.Middle 3 0 1).bottom = false := by
  constructor
  · simp [drawNoteRectEdges]
  · decide

/-- Helper: `(List.range n).map (fun j => buf[j])` is `buf.take n`. -/
theorem map_getD_range_eq_take (buf : List Nat) :
    ∀ n, n ≤ buf.length → (List.range n).map (fun j => buf.getD j 0) = buf.take n := by
  intro n
  induction n with
  | zero => intro _; simp
  | succ n ih =>
    intro h
    rw [List.range_succ, List.map_append, ih (by omega)]
    have hlt : n < buf.length := by omega
    rw [List.take_succ, List.getElem?_eq_getElem hlt]
    simp only [List.map_cons, List.map_nil, Option.toList_some]
    rw [List.getD_eq_getElem buf 0 hlt]

/-- C7 (amended): `FormatBinary` renders the first `width / 8` source bytes
highest index first, eight `'0'/'1'` characters per byte, each byte
followed by a space — including the last, so formatting the byte `0x0F`
as `U8` in binary radix yields the nine-character string `"00001111 "`. -/
theorem C7_binary_format :
    (∀ (buf : List Nat) (n : Nat), n ≤ buf.length →
      FormatBinary buf (8 * n) =
        String.mk (List.flatten (((buf.take n).reverse).map fun b => byteBits b ++ [' ']))) ∧
    (∀ (hostLittle : Bool) (previewEndianess : Nat),
      DrawPreviewDataBin hostLittle previewEndianess [15] = "00001111 ") := by
  constructor
  · intro buf n h
    have key : ((List.range n).reverse).map (fun j => byteBits (buf.getD j 0) ++ [' ']) =
        ((buf.take n).reverse).map (fun b => byteBits b ++ [' ']) := by
      rw [List.map_reverse, List.map_reverse, ← map_getD_range_eq_take buf n h, List.map_map]
      rfl
    simp only [FormatBinary]
    rw [Nat.mul_div_cancel_left n (by norm_num), key]
  · intro hostLittle pe
    have hEC : EndianessCopy hostLittle pe [15] = [15] := by
      unfold EndianessCopy EndianessCopyBigEndian EndianessCopyLittleEndian
      split <;> split <;> rfl
    unfold DrawPreviewDataBin
    rw [hEC]
    decide

/-- C7 fails as stated: the binary rendering of the byte `0x0F` is not
exactly `"00001111"` (the code emits a space after every byte, the last
included). -/
theorem C7_cex : DrawPreviewDataBin true 0 [15] ≠ "00001111" := by decide

/-- Witness for C7: the loop characterisation evaluated at the one-byte
buffer `[0x0F]`. -/
theorem C7_witness :
    FormatBinary [15] (8 * 1) =
      String.mk (List.flatten ((([15] : List Nat).take 1).reverse.map fun b =>
        byteBits b ++ [' '])) :=
  C7_binary_format.1 [15] 1 (by decide)

/-- C8 (amended): for a drawn highlight cell the rectangle's width is
widened from two glyph-widths to a full cell exactly when
`isNextByteHighlighted` holds — the next address exists and (the user
highlight upper bound `HighlightMax` is set and lies beyond it, regardless
of `HighlightMin`; or the highlight callback accepts it; or it lies below
`DataPreviewAddr + preview size` computed in wrapping `size_t` arithmetic
(with the preview unset at `SIZE_MAX` the sum wraps to
`preview size - 1`, so this test is almost always false), regardless of
the span's start; or the matched color range extends past it) — or the
cell is in the last column of its display line. -/
theorem C8_width_condition (ed : EditorCfg) (addr mem_size preview_data_type_size colIdx : Nat)
    (_hcell : cellHasHighlightRect ed addr preview_data_type_size = true) :
    (highlightCellWidth ed addr mem_size preview_data_type_size colIdx ≠ CellWidth.twoGlyphs) ↔
      (isNextByteHighlighted ed addr mem_size preview_data_type_size
          (((IsInRange ed.Ranges addr).idxOut).getD SIZE_MAX) = true ∨
        colIdx + 1 = ed.Cols) := by
  by_cases hcond : (isNextByteHighlighted ed addr mem_size preview_data_type_size
      (((IsInRange ed.Ranges addr).idxOut).getD SIZE_MAX) ||
     decide (colIdx + 1 = ed.Cols)) = true
  · constructor
    · intro _
      simpa using hcond
    · intro _
      simp only [highlightCellWidth]
      rw [if_pos hcond]
      split <;> decide
  · constructor
    · intro hw
      exfalso
      apply hw
      simp only [highlightCellWidth]
      rw [if_neg hcond]
    · intro hor
      exact absurd (by simp only [Bool.or_eq_true, decide_eq_true_eq]; exact hor) hcond

/-- C8 fails as stated: in the state `ed8` the cell at address 3 is drawn
highlighted (via the preview span), its width is widened, it is not in the
last column, and yet the next address 4 carries no annotation at all. -/
theorem C8_cex :
    cellHasHighlightRect ed8 3 1 = true ∧
    highlightCellWidth ed8 3 100 1 3 ≠ CellWidth.twoGlyphs ∧
    nextAddrAnnotated ed8 3 100 1 = false ∧
    3 + 1 ≠ ed8.Cols :=
  ⟨by decide, by decide, by decide, by decide⟩

/-- Witness for C8: the amended width condition evaluated in the state
`ed8` at address 3, column 3 (widened), and in the no-preview state
`ed8b` at address 19, column 3, where the wrapped preview bound keeps the
cell at two glyph-widths. -/
theorem C8_witness :
    ((highlightCellWidth ed8 3 100 1 3 ≠ CellWidth.twoGlyphs) ↔
      (isNextByteHighlighted ed8 3 100 1 (((IsInRange ed8.Ranges 3).idxOut).getD SIZE_MAX) = true ∨
        3 + 1 = ed8.Cols)) ∧
    highlightCellWidth ed8b 19 100 4 3 = CellWidth.twoGlyphs ∧
    ((highlightCellWidth ed8b 19 100 4 3 ≠ CellWidth.twoGlyphs) ↔
      (isNextByteHighlighted ed8b 19 100 4
          (((IsInRange ed8b.Ranges 19).idxOut).getD SIZE_MAX) = true ∨
        3 + 1 = ed8b.Cols)) :=
  ⟨C8_width_condition ed8 3 100 1 3 (by decide), by decide,
    C8_width_condition ed8b 19 100 4 3 (by decide)⟩

/-- C9: whenever the converter's scan of the input text fails, the stored
`ValueToConvert` register is left exactly unchanged, for every conversion
type and radix. -/
theorem C9_scan_fail_no_update (hostLittle : Bool) (st : ConverterState) (text : String)
    (hfail : scanFailed st text = true) :
    convertInput hostLittle st text = st.ValueToConvert := by
  obtain ⟨ty, fmt, v⟩ := st
  cases fmt <;> cases ty <;>
    simp_all [convertInput, scanFailed, Option.isNone_iff_eq_none, DataType.code]

/-- Witness for C9: the malformed decimal text `"."` for a `U32`
conversion leaves the register at 42. -/
theorem C9_witness :
    scanFailed ⟨DataType.U32, DataFormat.Dec, 42⟩ "." = true ∧
    convertInput true ⟨DataType.U32, DataFormat.Dec, 42⟩ "." = 42 :=
  ⟨by decide, C9_scan_fail_no_update true ⟨DataType.U32, DataFormat.Dec, 42⟩ "." (by decide)⟩

/-- Helper: the three classification outcomes of a matched range. -/
theorem classifyPos_iff (r : HighlightRange) (addr : Nat) :
    classifyPos r addr ≠ RangePosition.NotInRange ∧
    (classifyPos r addr = RangePosition.Start ↔ addr = r.RangeStartAddress) ∧
    (classifyPos r addr = RangePosition.End ↔
      (addr = r.RangeEndAddress - 1 ∧ addr ≠ r.RangeStartAddress)) ∧
    (classifyPos r addr = RangePosition.Middle ↔
      (addr ≠ r.RangeStartAddress ∧ addr ≠ r.RangeEndAddress - 1)) := by
  unfold classifyPos
  split_ifs with h1 h2 <;> simp_all

/-- Helper: inversion of a successful linear scan — a written index points
at an active containing range, and the result is its classification. -/
theorem linearScanFrom_idxOut (addr : Nat) :
    ∀ (l : List HighlightRange) (i0 i : Nat),
      (linearScanFrom addr l i0).idxOut = some i →
      i0 ≤ i ∧ ∃ r, l.get? (i - i0) = some r ∧ containsAddr r addr ∧ r.isActive = true ∧
        linearScanFrom addr l i0 = ⟨classifyPos r addr, some r.RangeColor, some i⟩ := by
  intro l
  induction l with
  | nil => intro i0 i h; simp [linearScanFrom] at h
  | cons r rest ih =>
    intro i0 i h
    by_cases hc : containsAddr r addr
    · cases ha : r.isActive
      · simp [linearScanFrom, hc, ha] at h
      · rw [linearScanFrom, if_pos hc, if_neg (by simp [ha] : ¬ r.isActive = false)] at h
        have hi : i = i0 := by simpa using h.symm
        subst hi
        refine ⟨Nat.le_refl i, r, by simp, hc, ha, ?_⟩
        rw [linearScanFrom, if_pos hc, if_neg (by simp [ha] : ¬ r.isActive = false)]
    · rw [linearScanFrom, if_neg hc] at h
      obtain ⟨h1, r', hr', hcon, hact, heq⟩ := ih (i0 + 1) i h
      refine ⟨by omega, r', ?_, hcon, hact, ?_⟩
      · have heq' : i - i0 = (i - (i0 + 1)) + 1 := by omega
        rw [heq']
        simpa using hr'
      · rw [linearScanFrom, if_neg hc]
        exact heq

/-- Helper: the linear scan never reports a position when every active
range fails to contain the address. -/
theorem linearScanFrom_noActive (addr : Nat) :
    ∀ (l : List HighlightRange) (i0 : Nat),
      (∀ r ∈ l, r.isActive = true → ¬ containsAddr r addr) →
      (linearScanFrom addr l i0).pos = RangePosition.NotInRange := by
  intro l
  induction l with
  | nil => intro i0 _; rfl
  | cons r rest ih =>
    intro i0 hno
    by_cases hc : containsAddr r addr
    · have ha : r.isActive = false := by
        cases hr : r.isActive
        · rfl
        · exact absurd hc (hno r (List.mem_cons_self r rest) hr)
      rw [linearScanFrom, if_pos hc, if_pos ha]
    · rw [linearScanFrom, if_neg hc]
      exact ih (i0 + 1) fun r' hr' => hno r' (List.mem_cons_of_mem r hr')

/-- Helper: the linear scan on a list with no containing range at all. -/
theorem linearScanFrom_none (addr : Nat) :
    ∀ (l : List HighlightRange) (i0 : Nat), (∀ r ∈ l, ¬ containsAddr r addr) →
      linearScanFrom addr l i0 = ⟨RangePosition.NotInRange, none, none⟩ := by
  intro l
  induction l with
  | nil => intro i0 _; rfl
  | cons r rest ih =>
    intro i0 hno
    rw [linearScanFrom, if_neg (hno r (List.mem_cons_self r rest))]
    exact ih (i0 + 1) fun r' hr' => hno r' (List.mem_cons_of_mem r hr')

/-- Helper: the linear scan at the first containing range — classification
when active, immediate `NotInRange` (color written, index not) when
inactive. -/
theorem linearScanFrom_first (addr : Nat) :
    ∀ (l : List HighlightRange) (i0 p : Nat) (r : HighlightRange),
      l.get? p = some r → containsAddr r addr →
      (∀ q rq, q < p → l.get? q = some rq → ¬ containsAddr rq addr) →
      linearScanFrom addr l i0 =
        (if r.isActive then (⟨classifyPos r addr, some r.RangeColor, some (i0 + p)⟩ : RangeQuery)
         else ⟨RangePosition.NotInRange, some r.RangeColor, none⟩) := by
  intro l
  induction l with
  | nil => intro i0 p r hp; simp at hp
  | cons a rest ih =>
    intro i0 p r hp hc hfirst
    cases p with
    | zero =>
      simp only [List.get?] at hp
      injection hp with hp
      subst hp
      rw [linearScanFrom, if_pos hc]
      cases ha : a.isActive
      · simp
      · simp
    | succ p =>
      have hna : ¬ containsAddr a addr := hfirst 0 a (Nat.succ_pos p) rfl
      rw [linearScanFrom, if_neg hna]
      have hrec := ih (i0 + 1) p r (by simpa using hp) hc
        (fun q rq hq hget => hfirst (q + 1) rq (by omega) (by simpa using hget))
      rw [hrec]
      have : i0 + 1 + p = i0 + (p + 1) := by omega
      rw [this]

/-- Helper: comparator inversion — found. -/
theorem rangeCmp_found (addr : Nat) (r : HighlightRange)
    (h : rangeCmp addr r = CmpOutcome.found) : containsAddr r addr ∧ r.isActive = true := by
  unfold rangeCmp at h
  split_ifs at h with h1 h2 h3
  · exact ⟨⟨by omega, by omega⟩, h3⟩

/-- Helper: comparator inversion — cancel. -/
theorem rangeCmp_cancel (addr : Nat) (r : HighlightRange)
    (h : rangeCmp addr r = CmpOutcome.cancel) : containsAddr r addr ∧ r.isActive = false := by
  unfold rangeCmp at h
  split_ifs at h with h1 h2 h3
  · exact ⟨⟨by omega, by omega⟩, by simpa using h3⟩

/-- Helper: comparator inversion — go left. -/
theorem rangeCmp_goLeft (addr : Nat) (r : HighlightRange)
    (h : rangeCmp addr r = CmpOutcome.goLeft) : addr < r.RangeStartAddress := by
  unfold rangeCmp at h
  split_ifs at h with h1 h2 h3
  exact h1

/-- Helper: comparator inversion — go right. -/
theorem rangeCmp_goRight (addr : Nat) (r : HighlightRange)
    (h : rangeCmp addr r = CmpOutcome.goRight) :
    r.RangeEndAddress ≤ addr ∧ r.RangeStartAddress ≤ addr := by
  unfold rangeCmp at h
  split_ifs at h with h1 h2 h3
  · exact ⟨h2, by omega⟩

/-- Helper: a successful binary search always points at an active
containing range, whatever the list looks like. -/
theorem binaryFindAux_some (ranges : List HighlightRange) (addr : Nat) :
    ∀ (fuel lo hi i : Nat),
      binaryFindAux ranges addr fuel lo hi = some i →
      ∃ r, ranges.get? i = some r ∧ containsAddr r addr ∧ r.isActive = true := by
  intro fuel
  induction fuel with
  | zero => intro lo hi i h; simp [binaryFindAux] at h
  | succ n ih =>
    intro lo hi i h
    rw [binaryFindAux] at h
    split at h
    · split at h
      · exact absurd h (by simp)
      · next r hm =>
        split at h
        · exact ih _ _ _ h
        · exact ih _ _ _ h
        · next hcmp =>
          injection h with h
          subst h
          obtain ⟨hc, ha⟩ := rangeCmp_found addr r hcmp
          exact ⟨r, hm, hc, ha⟩
        · exact absurd h (by simp)
    · exact absurd h (by simp)

/-- Helper: the binary search finds nothing when no range contains the
address. -/
theorem binaryFindAux_noContain (ranges : List HighlightRange) (addr : Nat)
    (hno : ∀ k r, ranges.get? k = some r → ¬ containsAddr r addr) :
    ∀ fuel lo hi, binaryFindAux ranges addr fuel lo hi = none := by
  intro fuel
  induction fuel with
  | zero => intro lo hi; rfl
  | succ n ih =>
    intro lo hi
    rw [binaryFindAux]
    split
    · split
      · rfl
      · next r hm =>
        split
        · exact ih _ _
        · exact ih _ _
        · next hcmp => exact absurd (rangeCmp_found addr r hcmp).1 (hno _ r hm)
        · rfl
    · rfl

/-- Helper: a sorted pairwise-disjoint list satisfies the index chain
condition. -/
theorem pairwise_chain {ranges : List HighlightRange}
    (hsd : List.Pairwise (fun a b => a.RangeEndAddress ≤ b.RangeStartAddress) ranges) :
    ∀ i j ri rj, i < j → ranges.get? i = some ri → ranges.get? j = some rj →
      ri.RangeEndAddress ≤ rj.RangeStartAddress := by
  intro i j ri rj hij hi hj
  obtain ⟨hi', hgi⟩ := List.get?_eq_some.mp hi
  obtain ⟨hj', hgj⟩ := List.get?_eq_some.mp hj
  have := List.pairwise_iff_getElem.mp hsd i j hi' hj' hij
  simp only [List.get_eq_getElem] at hgi hgj
  rw [hgi, hgj] at this
  exact this

/-- Helper: under the chain condition the containing range is unique. -/
theorem containing_unique {ranges : List HighlightRange} {addr : Nat}
    (hchain : ∀ i j ri rj, i < j → ranges.get? i = some ri → ranges.get? j = some rj →
      ri.RangeEndAddress ≤ rj.RangeStartAddress)
    {i j : Nat} {ri rj : HighlightRange}
    (hi : ranges.get? i = some ri) (hj : ranges.get? j = some rj)
    (hci : containsAddr ri addr) (hcj : containsAddr rj addr) : i = j := by
  obtain ⟨h1, h2⟩ := hci
  obtain ⟨h3, h4⟩ := hcj
  rcases Nat.lt_trichotomy i j with h | h | h
  · have := hchain i j ri rj h hi hj; omega
  · exact h
  · have := hchain j i rj ri h hj hi; omega

/-- Helper: the binary search locates the unique containing range of a
sorted, pairwise-disjoint, well-formed list, reporting it when active and
cancelling when inactive. -/
theorem binaryFindAux_found (ranges : List HighlightRange) (addr : Nat)
    (hwf : ∀ r ∈ ranges, r.RangeStartAddress < r.RangeEndAddress)
    (hchain : ∀ i j ri rj, i < j → ranges.get? i = some ri → ranges.get? j = some rj →
      ri.RangeEndAddress ≤ rj.RangeStartAddress)
    (k : Nat) (rk : HighlightRange) (hk : ranges.get? k = some rk)
    (hck : containsAddr rk addr) :
    ∀ (fuel lo hi : Nat), hi - lo ≤ fuel → hi ≤ ranges.length → lo ≤ k → k < hi →
      binaryFindAux ranges addr fuel lo hi = (if rk.isActive then some k else none) := by
  intro fuel
  induction fuel with
  | zero => intro lo hi h1 _ h3 h4; omega
  | succ n ih =>
    intro lo hi hfuel hlen hlo hhi
    have hlohi : lo < hi := by omega
    have hmidlt : (lo + hi) / 2 < hi := by omega
    have hmidge : lo ≤ (lo + hi) / 2 := by omega
    have hmidlen : (lo + hi) / 2 < ranges.length := by omega
    rw [binaryFindAux, if_pos hlohi]
    split
    · next hm =>
      rw [List.get?_eq_get hmidlen] at hm
      exact absurd hm (by simp)
    · next rm hrm =>
      split
      · next hcmp =>
        have hlt := rangeCmp_goLeft addr rm hcmp
        have hkmid : k < (lo + hi) / 2 := by
          rcases Nat.lt_trichotomy k ((lo + hi) / 2) with h | h | h
          · exact h
          · subst h; rw [hk] at hrm; injection hrm with e; subst e
            exact absurd hck.1 (by omega)
          · have hc1 := hchain _ _ _ _ h hrm hk
            have hc2 := hwf rm (List.get?_mem hrm)
            obtain ⟨h1, _⟩ := hck
            omega
        exact ih lo ((lo + hi) / 2) (by omega) (by omega) hlo hkmid
      · next hcmp =>
        have hge := rangeCmp_goRight addr rm hcmp
        have hkmid : (lo + hi) / 2 < k := by
          rcases Nat.lt_trichotomy k ((lo + hi) / 2) with h | h | h
          · have hc1 := hchain _ _ _ _ h hk hrm
            obtain ⟨_, h2⟩ := hck
            omega
          · subst h; rw [hk] at hrm; injection hrm with e; subst e
            exact absurd hck.2 (by omega)
          · exact h
        exact ih ((lo + hi) / 2 + 1) hi (by omega) hlen (by omega) hhi
      · next hcmp =>
        obtain ⟨hcm, ham⟩ := rangeCmp_found addr rm hcmp
        have hkm : k = (lo + hi) / 2 := containing_unique hchain hk hrm hck hcm
        subst hkm
        rw [hk] at hrm; injection hrm with e; subst e
        rw [if_pos ham]
      · next hcmp =>
        obtain ⟨hcm, ham⟩ := rangeCmp_cancel addr rm hcmp
        have hkm : k = (lo + hi) / 2 := containing_unique hchain hk hrm hck hcm
        subst hkm
        rw [hk] at hrm; injection hrm with e; subst e
        rw [if_neg (by simp [ham])]

/-- Helper: inversion of the linear path — a written index points at an
active containing range, classified. -/
theorem IsInRangeLinear_idxOut (ranges : List HighlightRange) (addr i : Nat)
    (h : (IsInRangeLinear ranges addr).idxOut = some i) :
    ∃ r, ranges.get? i = some r ∧ containsAddr r addr ∧ r.isActive = true ∧
      IsInRangeLinear ranges addr = ⟨classifyPos r addr, some r.RangeColor, some i⟩ := by
  by_cases hne : ranges = []
  · unfold IsInRangeLinear at h
    rw [dif_pos hne] at h
    simp at h
  · by_cases hrej : addr < (ranges.head hne).RangeStartAddress ∨
        (ranges.getLast hne).RangeEndAddress < addr
    · unfold IsInRangeLinear at h
      rw [dif_neg hne, if_pos hrej] at h
      simp at h
    · unfold IsInRangeLinear at h ⊢
      rw [dif_neg hne, if_neg hrej] at h ⊢
      obtain ⟨h0, r, hr, hc, ha, heq⟩ := linearScanFrom_idxOut addr ranges 0 i h
      exact ⟨r, by simpa using hr, hc, ha, heq⟩

/-- Helper: inversion of the binary path — a written index points at an
active containing range, classified. -/
theorem IsInRangeBinary_idxOut (ranges : List HighlightRange) (addr i : Nat)
    (h : (IsInRangeBinary ranges addr).idxOut = some i) :
    ∃ r, ranges.get? i = some r ∧ containsAddr r addr ∧ r.isActive = true ∧
      IsInRangeBinary ranges addr = ⟨classifyPos r addr, some r.RangeColor, some i⟩ := by
  by_cases hne : ranges = []
  · unfold IsInRangeBinary at h
    rw [dif_pos hne] at h
    simp at h
  · by_cases hrej : addr < (ranges.head hne).RangeStartAddress ∨
        (ranges.getLast hne).RangeEndAddress < addr
    · unfold IsInRangeBinary at h
      rw [dif_neg hne, if_pos hrej] at h
      simp at h
    · unfold IsInRangeBinary at h ⊢
      rw [dif_neg hne, if_neg hrej] at h ⊢
      cases hb : binaryFindAux ranges addr ranges.length 0 ranges.length with
      | none => rw [hb] at h; simp at h
      | some idx =>
        obtain ⟨r, hr, hc, ha⟩ := binaryFindAux_some ranges addr _ _ _ _ hb
        simp only [hb, hr] at h ⊢
        have hidx : idx = i := by simpa using h
        subst hidx
        exact ⟨r, hr, hc, ha, rfl⟩

/-- Helper: the linear path reports `NotInRange` when no active range
contains the address. -/
theorem IsInRangeLinear_noActive (ranges : List HighlightRange) (addr : Nat)
    (hno : ∀ r ∈ ranges, r.isActive = true → ¬ containsAddr r addr) :
    (IsInRangeLinear ranges addr).pos = RangePosition.NotInRange := by
  by_cases hne : ranges = []
  · unfold IsInRangeLinear
    rw [dif_pos hne]
  · by_cases hrej : addr < (ranges.head hne).RangeStartAddress ∨
        (ranges.getLast hne).RangeEndAddress < addr
    · unfold IsInRangeLinear
      rw [dif_neg hne, if_pos hrej]
    · unfold IsInRangeLinear
      rw [dif_neg hne, if_neg hrej]
      exact linearScanFrom_noActive addr ranges 0 hno

/-- Helper: the binary path reports `NotInRange` when no active range
contains the address. -/
theorem IsInRangeBinary_noActive (ranges : List HighlightRange) (addr : Nat)
    (hno : ∀ r ∈ ranges, r.isActive = true → ¬ containsAddr r addr) :
    (IsInRangeBinary ranges addr).pos = RangePosition.NotInRange := by
  by_cases hne : ranges = []
  · unfold IsInRangeBinary
    rw [dif_pos hne]
  · by_cases hrej : addr < (ranges.head hne).RangeStartAddress ∨
        (ranges.getLast hne).RangeEndAddress < addr
    · unfold IsInRangeBinary
      rw [dif_neg hne, if_pos hrej]
    · unfold IsInRangeBinary
      rw [dif_neg hne, if_neg hrej]
      cases hb : binaryFindAux ranges addr ranges.length 0 ranges.length with
      | none => simp only [hb]
      | some idx =>
        obtain ⟨r, hr, hc, ha⟩ := binaryFindAux_some ranges addr _ _ _ _ hb
        exact absurd hc (hno r (List.get?_mem hr) ha)

/-- C2 (amended): when `IsInRange` matches an active range `r` (index
written), the classification is `Start` iff `addr = r.start`, `End` iff
`addr = r.end - 1` and `addr ≠ r.start` (the start test takes precedence
on one-byte ranges), and `Middle` otherwise; when no active range contains
the address — the empty sequence included — it returns `NotInRange`. -/
theorem C2_classification (ranges : List HighlightRange) (addr i : Nat) :
    ((IsInRange ranges addr).idxOut = some i →
      ∃ r, ranges.get? i = some r ∧ r.isActive = true ∧ containsAddr r addr ∧
        (IsInRange ranges addr).pos ≠ RangePosition.NotInRange ∧
        ((IsInRange ranges addr).pos = RangePosition.Start ↔ addr = r.RangeStartAddress) ∧
        ((IsInRange ranges addr).pos = RangePosition.End ↔
          (addr = r.RangeEndAddress - 1 ∧ addr ≠ r.RangeStartAddress)) ∧
        ((IsInRange ranges addr).pos = RangePosition.Middle ↔
          (addr ≠ r.RangeStartAddress ∧ addr ≠ r.RangeEndAddress - 1))) ∧
    ((∀ r ∈ ranges, r.isActive = true → ¬ containsAddr r addr) →
      (IsInRange ranges addr).pos = RangePosition.NotInRange) := by
  constructor
  · intro h
    by_cases hlen : ranges.length < 100
    · unfold IsInRange at h ⊢
      rw [if_pos hlen] at h ⊢
      obtain ⟨r, hr, hc, ha, heq⟩ := IsInRangeLinear_idxOut ranges addr i h
      rw [heq]
      refine ⟨r, hr, ha, hc, ?_, ?_, ?_, ?_⟩
      · simpa using (classifyPos_iff r addr).1
      · simpa using (classifyPos_iff r addr).2.1
      · simpa using (classifyPos_iff r addr).2.2.1
      · simpa using (classifyPos_iff r addr).2.2.2
    · unfold IsInRange at h ⊢
      rw [if_neg hlen] at h ⊢
      obtain ⟨r, hr, hc, ha, heq⟩ := IsInRangeBinary_idxOut ranges addr i h
      rw [heq]
      refine ⟨r, hr, ha, hc, ?_, ?_, ?_, ?_⟩
      · simpa using (classifyPos_iff r addr).1
      · simpa using (classifyPos_iff r addr).2.1
      · simpa using (classifyPos_iff r addr).2.2.1
      · simpa using (classifyPos_iff r addr).2.2.2
  · intro hno
    unfold IsInRange
    split
    · exact IsInRangeLinear_noActive ranges addr hno
    · exact IsInRangeBinary_noActive ranges addr hno

/-- C2 fails as stated: for the one-byte active range `[5, 6)`, address 5
matches (the index is written) and equals `end - 1`, yet the
classification is `Start`, not `End` — the "End iff `addr == end - 1`"
biconditional is violated because the start test takes precedence. -/
theorem C2_cex :
    (IsInRange [⟨5, 6, 0, true⟩] 5).idxOut = some 0 ∧
    ¬ ((IsInRange [⟨5, 6, 0, true⟩] 5).pos = RangePosition.End ↔ (5 : Nat) = 6 - 1) :=
  ⟨by decide, by decide⟩

/-- Witness for C2: the spec's `[10, 15)` example — address 15 yields
`NotInRange`, 10 `Start`, 14 `End`, 12 `Middle`. -/
theorem C2_witness :
    (IsInRange [⟨10, 15, 0, true⟩] 15).pos = RangePosition.NotInRange ∧
    (IsInRange [⟨10, 15, 0, true⟩] 10).pos = RangePosition.Start ∧
    (IsInRange [⟨10, 15, 0, true⟩] 14).pos = RangePosition.End ∧
    (IsInRange [⟨10, 15, 0, true⟩] 12).pos = RangePosition.Middle := by
  refine ⟨(C2_classification [⟨10, 15, 0, true⟩] 15 0).2 (by decide), ?_, ?_, ?_⟩
  · obtain ⟨r, hr, -, -, -, hs, -, -⟩ := (C2_classification [⟨10, 15, 0, true⟩] 10 0).1 (by decide)
    simp at hr
    subst hr
    exact hs.mpr rfl
  · obtain ⟨r, hr, -, -, -, -, he, -⟩ := (C2_classification [⟨10, 15, 0, true⟩] 14 0).1 (by decide)
    simp at hr
    subst hr
    exact he.mpr ⟨rfl, by decide⟩
  · obtain ⟨r, hr, -, -, -, -, -, hm⟩ := (C2_classification [⟨10, 15, 0, true⟩] 12 0).1 (by decide)
    simp at hr
    subst hr
    exact hm.mpr ⟨by decide, by decide⟩

/-- C6: inactive ranges are never reported — an address contained only in
inactive ranges yields `NotInRange` in both the linear and the
binary-search path; moreover, in the linear path, when the first containing
range in insertion order is inactive the result is `NotInRange` with no
index written, even when a later active range contains the same address. -/
theorem C6_inactive_never_reported (ranges : List HighlightRange) (addr : Nat) :
    ((∀ r ∈ ranges, containsAddr r addr → r.isActive = false) →
      (IsInRangeLinear ranges addr).pos = RangePosition.NotInRange ∧
      (IsInRangeBinary ranges addr).pos = RangePosition.NotInRange) ∧
    (∀ i ri, ranges.get? i = some ri → containsAddr ri addr → ri.isActive = false →
      (∀ j rj, j < i → ranges.get? j = some rj → ¬ containsAddr rj addr) →
      (IsInRangeLinear ranges addr).pos = RangePosition.NotInRange ∧
      (IsInRangeLinear ranges addr).idxOut = none) := by
  constructor
  · intro hno
    have hno' : ∀ r ∈ ranges, r.isActive = true → ¬ containsAddr r addr := by
      intro r hmem hact hcon
      rw [hno r hmem hcon] at hact
      cases hact
    exact ⟨IsInRangeLinear_noActive ranges addr hno', IsInRangeBinary_noActive ranges addr hno'⟩
  · intro i ri hi hci hact hfirst
    by_cases hne : ranges = []
    · unfold IsInRangeLinear
      rw [dif_pos hne]
      exact ⟨rfl, rfl⟩
    · by_cases hrej : addr < (ranges.head hne).RangeStartAddress ∨
          (ranges.getLast hne).RangeEndAddress < addr
      · unfold IsInRangeLinear
        rw [dif_neg hne, if_pos hrej]
        exact ⟨rfl, rfl⟩
      · unfold IsInRangeLinear
        rw [dif_neg hne, if_neg hrej,
          linearScanFrom_first addr ranges 0 i ri hi hci hfirst,
          if_neg (by simp [hact])]
        exact ⟨rfl, rfl⟩

/-- Witness for C6: the spec's inactive `[0, 100)` range at address 50 in
both paths, and the two-range sequence where the first containing range is
inactive while a later active `[40, 60)` also contains 50. -/
theorem C6_witness :
    ((IsInRangeLinear [⟨0, 100, 7, false⟩] 50).pos = RangePosition.NotInRange ∧
      (IsInRangeBinary [⟨0, 100, 7, false⟩] 50).pos = RangePosition.NotInRange) ∧
    ((IsInRangeLinear [⟨0, 100, 7, false⟩, ⟨40, 60, 8, true⟩] 50).pos =
        RangePosition.NotInRange ∧
      (IsInRangeLinear [⟨0, 100, 7, false⟩, ⟨40, 60, 8, true⟩] 50).idxOut = none) :=
  ⟨(C6_inactive_never_reported [⟨0, 100, 7, false⟩] 50).1 (by decide),
    (C6_inactive_never_reported [⟨0, 100, 7, false⟩, ⟨40, 60, 8, true⟩] 50).2 0
      ⟨0, 100, 7, false⟩ (by decide) (by decide) (by decide)
      (fun j rj hj _ => absurd hj (Nat.not_lt_zero j))⟩

/-- C1: on a well-formed (`start < end`), sorted, pairwise-disjoint range
sequence, for every address in `[front.start, back.end)` the linear-scan
algorithm and the binary-search algorithm agree: same classification, and
on a match the entire result — color and index included — coincides. -/
theorem C1_linear_binary_agree (ranges : List HighlightRange) (addr : Nat)
    (hwf : ∀ r ∈ ranges, r.RangeStartAddress < r.RangeEndAddress)
    (hsd : List.Pairwise (fun a b => a.RangeEndAddress ≤ b.RangeStartAddress) ranges)
    (hne : ranges ≠ [])
    (hlo : (ranges.head hne).RangeStartAddress ≤ addr)
    (hhi : addr < (ranges.getLast hne).RangeEndAddress) :
    (IsInRangeLinear ranges addr).pos = (IsInRangeBinary ranges addr).pos ∧
      ((IsInRangeLinear ranges addr).pos ≠ RangePosition.NotInRange →
        IsInRangeLinear ranges addr = IsInRangeBinary ranges addr) := by
  have hchain := pairwise_chain hsd
  have hrej : ¬ (addr < (ranges.head hne).RangeStartAddress ∨
      (ranges.getLast hne).RangeEndAddress < addr) := by
    push_neg
    exact ⟨by omega, by omega⟩
  have hLlin : IsInRangeLinear ranges addr = linearScanFrom addr ranges 0 := by
    unfold IsInRangeLinear
    rw [dif_neg hne, if_neg hrej]
  have hBbin : IsInRangeBinary ranges addr =
      (match binaryFindAux ranges addr ranges.length 0 ranges.length with
       | some idx =>
         match ranges.get? idx with
         | some r => (⟨classifyPos r addr, some r.RangeColor, some idx⟩ : RangeQuery)
         | none => ⟨RangePosition.NotInRange, none, none⟩
       | none => ⟨RangePosition.NotInRange, none, none⟩) := by
    unfold IsInRangeBinary
    rw [dif_neg hne, if_neg hrej]
  by_cases hex : ∃ k rk, ranges.get? k = some rk ∧ containsAddr rk addr
  · obtain ⟨k, rk, hk, hck⟩ := hex
    have hkl : k < ranges.length := (List.get?_eq_some.mp hk).1
    have hfirst : ∀ q rq, q < k → ranges.get? q = some rq → ¬ containsAddr rq addr := by
      intro q rq hq hget hcq
      have := containing_unique hchain hget hk hcq hck
      omega
    have hbfa := binaryFindAux_found ranges addr hwf hchain k rk hk hck
      ranges.length 0 ranges.length (by omega) (Nat.le_refl _) (Nat.zero_le k) hkl
    rw [hLlin, hBbin, linearScanFrom_first addr ranges 0 k rk hk hck hfirst, hbfa]
    have hk2 : ranges[k]? = some rk := by
      rw [← List.get?_eq_getElem?]
      exact hk
    cases ha : rk.isActive
    · simp
    · simp [hk2]
  · push_neg at hex
    have hno : ∀ k r, ranges.get? k = some r → ¬ containsAddr r addr :=
      fun k r h => hex k r h
    have hnomem : ∀ r ∈ ranges, ¬ containsAddr r addr := by
      intro r hm
      obtain ⟨n, hn⟩ := List.mem_iff_get?.mp hm
      exact hno n r hn
    rw [hLlin, hBbin, linearScanFrom_none addr ranges 0 hnomem,
      binaryFindAux_noContain ranges addr hno ranges.length 0 ranges.length]
    exact ⟨rfl, fun _ => rfl⟩

/-- Witness for C1: the two-range sorted disjoint sequence
`[0,4), [10,20)` at address 15, where both algorithms return `Middle` at
index 1 with color 2. -/
theorem C1_witness :
    (IsInRangeLinear [⟨0, 4, 1, true⟩, ⟨10, 20, 2, true⟩] 15).pos =
        (IsInRangeBinary [⟨0, 4, 1, true⟩, ⟨10, 20, 2, true⟩] 15).pos ∧
      ((IsInRangeLinear [⟨0, 4, 1, true⟩, ⟨10, 20, 2, true⟩] 15).pos ≠
          RangePosition.NotInRange →
        IsInRangeLinear [⟨0, 4, 1, true⟩, ⟨10, 20, 2, true⟩] 15 =
          IsInRangeBinary [⟨0, 4, 1, true⟩, ⟨10, 20, 2, true⟩] 15) :=
  C1_linear_binary_agree [⟨0, 4, 1, true⟩, ⟨10, 20, 2, true⟩] 15
    (by decide) (by decide) (by decide) (by decide) (by decide)

/-- Helper: the lower-case hex digit characters evaluate back to their
values. -/
theorem hexCharVal_hexDigitChar : ∀ d < 16, hexCharVal (hexDigitChar d) = d := by decide

/-- Helper: the lower-case hex digit characters pass `isxdigit`. -/
theorem isHex_hexDigitChar : ∀ d < 16, isHexDigitChar (hexDigitChar d) = true := by decide

/-- Helper: every character `natToHexRevAux` emits is a hex digit. -/
theorem natToHexRevAux_all_hex :
    ∀ (fuel v : Nat) (c : Char), c ∈ natToHexRevAux fuel v → isHexDigitChar c = true := by
  intro fuel
  induction fuel with
  | zero => intro v c hc; simp [natToHexRevAux] at hc
  | succ n ih =>
    intro v c hc
    by_cases h0 : v = 0
    · subst h0; simp [natToHexRevAux] at hc
    · simp only [natToHexRevAux, if_neg h0, List.mem_cons] at hc
      rcases hc with hc | hc
      · subst hc; exact isHex_hexDigitChar (v % 16) (by omega)
      · exact ih (v / 16) c hc

/-- Helper: `natToHexRevAux` emits at least one digit for a nonzero value. -/
theorem natToHexRevAux_ne_nil (fuel v : Nat) (h0 : v ≠ 0) (hf : 0 < fuel) :
    natToHexRevAux fuel v ≠ [] := by
  cases fuel with
  | zero => omega
  | succ n => simp [natToHexRevAux, h0]

/-- Helper: appending one digit multiplies the accumulated value by 16. -/
theorem hexDigitsVal_append_single (l : List Char) (c : Char) :
    hexDigitsVal (l ++ [c]) = 16 * hexDigitsVal l + hexCharVal c := by
  unfold hexDigitsVal
  rw [List.foldl_append]
  rfl

/-- Helper: reading back the emitted digits recovers the value. -/
theorem hexRoundTripAux :
    ∀ (fuel v : Nat), v < 16 ^ fuel → hexDigitsVal (natToHexRevAux fuel v).reverse = v := by
  intro fuel
  induction fuel with
  | zero =>
    intro v hv
    have : v = 0 := by simpa using hv
    subst this; rfl
  | succ n ih =>
    intro v hv
    by_cases h0 : v = 0
    · subst h0; rfl
    · simp only [natToHexRevAux, if_neg h0, List.reverse_cons]
      rw [hexDigitsVal_append_single, ih (v / 16) (by
          rw [Nat.div_lt_iff_lt_mul (by norm_num)]
          calc v < 16 ^ (n + 1) := hv
          _ = 16 ^ n * 16 := by rw [pow_succ]),
        hexCharVal_hexDigitChar (v % 16) (by omega)]
      omega

/-- Helper: the printed digit string evaluates back to the value. -/
theorem hexDigitsVal_hexDigitsOf (v : Nat) (hv : v < 16 ^ 64) :
    hexDigitsVal (hexDigitsOf v) = v := by
  by_cases h0 : v = 0
  · subst h0; rfl
  · unfold hexDigitsOf
    rw [if_neg h0]
    exact hexRoundTripAux 64 v hv

/-- Helper: the printed digit string is never empty. -/
theorem hexDigitsOf_ne_nil (v : Nat) : hexDigitsOf v ≠ [] := by
  by_cases h0 : v = 0
  · subst h0; simp [hexDigitsOf]
  · unfold hexDigitsOf
    rw [if_neg h0]
    simpa using natToHexRevAux_ne_nil 64 v h0 (by norm_num)

/-- Helper: the printed digit string consists of hex digits. -/
theorem hexDigitsOf_all_hex (v : Nat) : ∀ c ∈ hexDigitsOf v, isHexDigitChar c = true := by
  intro c hc
  by_cases h0 : v = 0
  · subst h0; simp [hexDigitsOf] at hc; subst hc; decide
  · unfold hexDigitsOf at hc
    rw [if_neg h0, List.mem_reverse] at hc
    exact natToHexRevAux_all_hex 64 v c hc

/-- Helper: `takeWhile` is the identity on a list all of whose elements
satisfy the predicate. -/
theorem takeWhile_of_all {p : Char → Bool} :
    ∀ l : List Char, (∀ c ∈ l, p c = true) → l.takeWhile p = l := by
  intro l
  induction l with
  | nil => intro _; rfl
  | cons a t ih =>
    intro h
    rw [List.takeWhile_cons, if_pos (h a (List.mem_cons_self a t)),
      ih fun c hc => h c (List.mem_cons_of_mem a hc)]

/-- Helper: leading zero digits do not change the accumulated value. -/
theorem hexDigitsVal_replicate_zero :
    ∀ (k : Nat) (ds : List Char),
      hexDigitsVal (List.replicate k '0' ++ ds) = hexDigitsVal ds := by
  intro k
  induction k with
  | zero => intro ds; rfl
  | succ n ih =>
    intro ds
    have hstep : hexDigitsVal ('0' :: (List.replicate n '0' ++ ds)) =
        hexDigitsVal (List.replicate n '0' ++ ds) := rfl
    rw [List.replicate_succ, List.cons_append, hstep, ih]

/-- Helper: the `%zX` scan inverts the `0x%0*x` print exactly. -/
theorem scanHexX_sprintfHex0x (pad v : Nat) (hv : v < 16 ^ 64) :
    scanHexX (sprintfHex0x pad v) = some v := by
  have hall : ∀ c ∈ List.replicate (pad - (hexDigitsOf v).length) '0' ++ hexDigitsOf v,
      isHexDigitChar c = true := by
    intro c hc
    rcases List.mem_append.mp hc with hc | hc
    · rw [List.eq_of_mem_replicate hc]; decide
    · exact hexDigitsOf_all_hex v c hc
  have h0 : scanHexX (sprintfHex0x pad v) =
      scanHexCore (('0' :: 'x' :: (List.replicate (pad - (hexDigitsOf v).length) '0' ++
        hexDigitsOf v)).dropWhile Char.isWhitespace) := rfl
  rw [h0, List.dropWhile_cons, if_neg (by decide)]
  rw [scanHexCore, if_pos ⟨rfl, Or.inl rfl⟩]
  unfold scanHexDigits
  rw [takeWhile_of_all _ hall,
    if_neg (by simp [hexDigitsOf_ne_nil v]),
    hexDigitsVal_replicate_zero, hexDigitsVal_hexDigitsOf v hv]

/-- Helper: `bytesLE` produces exactly `n` bytes. -/
theorem bytesLE_length : ∀ (n v : Nat), (bytesLE n v).length = n := by
  intro n
  induction n with
  | zero => intro v; rfl
  | succ m ih => intro v; simp [bytesLE, ih]

/-- Helper: a prefix of the little-endian byte expansion. -/
theorem bytesLE_take : ∀ (a n v : Nat), a ≤ n → (bytesLE n v).take a = bytesLE a v := by
  intro a
  induction a with
  | zero => intro n v _; rfl
  | succ b ih =>
    intro n v h
    cases n with
    | zero => omega
    | succ m =>
      show ((v % 256 :: bytesLE m (v / 256)).take (b + 1)) = v % 256 :: bytesLE b (v / 256)
      rw [List.take_succ_cons, ih m (v / 256) (by omega)]

/-- Helper: reading the little-endian bytes natively gives the value. -/
theorem nativeReadUInt_bytesLE :
    ∀ (n v : Nat), nativeReadUInt true (bytesLE n v) = v % 2 ^ (8 * n) := by
  intro n
  induction n with
  | zero => intro v; simp [nativeReadUInt, bytesLE]; omega
  | succ m ih =>
    intro v
    have hfold : nativeReadUInt true (bytesLE (m + 1) v) =
        nativeReadUInt true (bytesLE m (v / 256)) * 256 + v % 256 := by
      simp [nativeReadUInt, bytesLE]
    rw [hfold, ih]
    have hpow : 2 ^ (8 * (m + 1)) = 256 * 2 ^ (8 * m) := by
      rw [Nat.mul_succ, pow_add]
      ring
    rw [hpow, Nat.mod_mul]
    ring

/-- Helper: decoding the register's first `size` bytes on a little-endian
host with the `LE` selector is the identity on `size`-byte values. -/
theorem decode_sizeT (size v : Nat) (hs : size ≤ 8) (hv : v < 2 ^ (8 * size)) :
    decodeUInt true 0 size ((sizeTBytes true v).take size) = v := by
  unfold sizeTBytes
  rw [if_pos rfl, bytesLE_take size 8 v hs]
  unfold decodeUInt EndianessCopy
  rw [show IsBigEndian true = true from rfl, if_pos rfl]
  unfold EndianessCopyBigEndian
  rw [if_neg (by simp), bytesLE_length]
  simp only [Nat.sub_self, List.replicate_zero, List.append_nil]
  rw [nativeReadUInt_bytesLE]
  exact Nat.mod_eq_of_lt hv

/-- Helper: the masked integer hex round trip. -/
theorem roundtrip_mask (size pad v : Nat) (hs : size ≤ 8) (hv : v < 2 ^ (8 * size)) :
    scanHexX (sprintfHex0x pad
      (decodeUInt true 0 size ((sizeTBytes true v).take size) % 2 ^ (8 * size))) = some v := by
  rw [decode_sizeT size v hs hv, Nat.mod_eq_of_lt hv]
  refine scanHexX_sprintfHex0x pad v ?_
  calc v < 2 ^ (8 * size) := hv
  _ ≤ 2 ^ 64 := Nat.pow_le_pow_right (by norm_num) (by omega)
  _ ≤ 16 ^ 64 := Nat.pow_le_pow_left (by norm_num) 64

/-- Helper: the unmasked integer hex round trip. -/
theorem roundtrip_nomask (size pad v : Nat) (hs : size ≤ 8) (hv : v < 2 ^ (8 * size)) :
    scanHexX (sprintfHex0x pad
      (decodeUInt true 0 size ((sizeTBytes true v).take size))) = some v := by
  rw [decode_sizeT size v hs hv]
  refine scanHexX_sprintfHex0x pad v ?_
  calc v < 2 ^ (8 * size) := hv
  _ ≤ 2 ^ 64 := Nat.pow_le_pow_right (by norm_num) (by omega)
  _ ≤ 16 ^ 64 := Nat.pow_le_pow_left (by norm_num) 64

/-- C3 (amended, on a little-endian host with the `LE` endianness
selector): for each of the eight integer kinds and every representable
value, formatting the converter register in hexadecimal radix and parsing
the text back with the `%zX` scan reproduces the value bit-for-bit.  (The
three float kinds format via hexadecimal floating-point `%a` text, which
the hex parse does not invert.) -/
theorem C3_hex_roundtrip_int (t : DataType) (v : Nat) (ht : t.isIntType = true)
    (hv : v < 2 ^ (8 * DataTypeGetSize t)) :
    scanHexX (formatHexConverter true 0 t v) = some v := by
  cases t with
  | S8 => exact roundtrip_mask 1 2 v (by norm_num) hv
  | U8 => exact roundtrip_mask 1 2 v (by norm_num) hv
  | S16 => exact roundtrip_mask 2 4 v (by norm_num) hv
  | U16 => exact roundtrip_mask 2 4 v (by norm_num) hv
  | S32 => exact roundtrip_nomask 4 8 v (by norm_num) hv
  | U32 => exact roundtrip_nomask 4 8 v (by norm_num) hv
  | S64 => exact roundtrip_nomask 8 16 v (by norm_num) hv
  | U64 => exact roundtrip_nomask 8 16 v (by norm_num) hv
  | HalfFloat => simp [DataType.isIntType] at ht
  | Float => simp [DataType.isIntType] at ht
  | Double => simp [DataType.isIntType] at ht

/-- C3 fails as stated: for `HalfFloat` the hex rendering of the half
value 1.0 (bit pattern 0x3C00) is the hexadecimal floating-point text
`"0x1p+0"`, which the `%zX` parse reads back as 1, not 0x3C00. -/
theorem C3_cex :
    scanHexX (formatHexConverter true 0 DataType.HalfFloat 0x3C00) ≠ some 0x3C00 := by
  decide

/-- Witness for C3: the `U32` value 0xDEADBEEF survives the hex format /
parse round trip. -/
theorem C3_witness :
    scanHexX (formatHexConverter true 0 DataType.U32 0xDEADBEEF) = some 0xDEADBEEF :=
  C3_hex_roundtrip_int DataType.U32 0xDEADBEEF rfl (by decide)

/-- C10: with type `HalfFloat` and radix `Dec` or `Bin`, submitting input
text never modifies `ValueToConvert` — the scan lands in a discarded local
copy, so even well-formed text leaves the register unchanged. -/
theorem C10_halffloat_noop (hostLittle : Bool) (st : ConverterState) (text : String)
    (hty : st.ConvertValueType = DataType.HalfFloat)
    (hfmt : st.ConvertValueFormat = DataFormat.Dec ∨ st.ConvertValueFormat = DataFormat.Bin) :
    convertInput hostLittle st text = st.ValueToConvert := by
  obtain ⟨ty, fmt, v⟩ := st
  cases hty
  rcases hfmt with h | h <;> cases h <;> rfl

/-- Witness for C10: `"1.5"` is well-formed (the `%f` scan succeeds), yet
the `HalfFloat`/`Dec` handler leaves the register at 42. -/
theorem C10_witness :
    scanF32bits "1.5" = some 1069547520 ∧
    convertInput true ⟨DataType.HalfFloat, DataFormat.Dec, 42⟩ "1.5" = 42 :=
  ⟨by decide,
    C10_halffloat_noop true ⟨DataType.HalfFloat, DataFormat.Dec, 42⟩ "1.5" rfl (Or.inl rfl)⟩

end MemoryEditor
